import Mathlib

/-!
Verification of the fimo module runtime (Python binding layer `fimo_std`).

The Python package under `src/python/fimo_std` is a binding layer: the
functions of `version.py` and `module.py` either implement logic directly
(argument validation, duplicate-export detection, context-manager
behaviour) or delegate to the C library `fimo_std`, whose sources are not
part of this tree.  Definitions below that embed Python code are
translated directly from the named function; definitions for behaviour
that lives in the C library are modelled from the specification and are
marked as such in their doc comments.
-/

set_option maxRecDepth 4096

/-! ## Versions (`version.py`) -/

/-- A concrete version quadruple as stored by `_ffi.FimoVersion`
(components are unsigned machine integers; we carry them as `Nat`). -/
structure Ver where
  major : Nat
  minor : Nat
  patch : Nat
  build : Nat
deriving DecidableEq, Repr

/-- Strict lexicographic comparison of two versions ignoring the build
component, as used by the compatibility rule. -/
def Ver.ltNoBuild (a b : Ver) : Bool :=
  a.major < b.major
    || (a.major == b.major
        && (a.minor < b.minor || (a.minor == b.minor && a.patch < b.patch)))

/-- Modelled from the spec: `Version.is_compatible` delegates to the C
function `fimo_version_compatible`, which is not part of this tree.  The
spec (and the docstring of `Version.is_compatible` in `version.py`) gives
the algorithm: the major versions must be equal; if the major version is
0 the minor versions must be equal; and `got >= required` ignoring the
build component. -/
def Ver.is_compatible (got required : Ver) : Bool :=
  got.major == required.major
    && (got.major != 0 || got.minor == required.minor)
    && !(Ver.ltNoBuild got required)

/-- The relation "a is at most b", lexicographically on
(major, minor, patch), ignoring builds; the spec phrases rule 3 of the
compatibility algorithm with this order. -/
def Ver.leNoBuild (a b : Ver) : Prop :=
  a.major < b.major
    ∨ (a.major = b.major
        ∧ (a.minor < b.minor ∨ (a.minor = b.minor ∧ a.patch ≤ b.patch)))

instance (a b : Ver) : Decidable (Ver.leNoBuild a b) := by
  unfold Ver.leNoBuild; infer_instance

/-- The error code raised by the argument checks of `Version.__init__`
(`error.ErrorCode.EINVAL.raise_if_error()`). -/
inductive PyErr where
  | EINVAL
deriving DecidableEq, Repr

/-- The version value stored by a successfully constructed `Version`
(the payload handed to `_ffi.FimoVersion`).  Components are kept as
integers, mirroring the unbounded Python `int` arguments. -/
structure FimoVersionQ where
  major : Int
  minor : Int
  patch : Int
  build : Int
deriving DecidableEq, Repr

/-- Embedding of `Version.__init__` from `version.py`: an omitted or
`None` build is replaced by 0, then each component is range-checked
(`EINVAL` on failure) and the quadruple is stored. -/
def VersionInit (major minor patch : Int) (build? : Option Int) :
    Except PyErr FimoVersionQ :=
  if ¬(0 ≤ major ∧ major ≤ 4294967295) then .error .EINVAL
  else if ¬(0 ≤ minor ∧ minor ≤ 4294967295) then .error .EINVAL
  else if ¬(0 ≤ patch ∧ patch ≤ 4294967295) then .error .EINVAL
  else if ¬(0 ≤ build?.getD 0 ∧ build?.getD 0 ≤ 18446744073709551615) then
    .error .EINVAL
  else .ok ⟨major, minor, patch, build?.getD 0⟩

/-! ## Module resource declarations (`module.py`, `module_resource`) -/

/-- Embedding of the path check of `module_resource` in `module.py`:
`path.startswith("/") or path.startswith("\\")`.  Both prefixes are a
single character, so the check inspects the first character of the path.
Paths are embedded as lists of characters. -/
def startsWithSep (path : List Char) : Bool :=
  match path with
  | [] => false
  | ch :: _ => ch == '/' || ch == '\\'

/-- Embedding of `module_resource` from `module.py`: raises `ValueError`
if the path starts with a slash or a backslash, otherwise returns the
path unchanged as the resource declaration. -/
def module_resource (path : List Char) : Except Unit (List Char) :=
  if startsWithSep path then .error () else .ok path

/-! ## Export declarations (`module.py`, `export_module`) -/

/-- One symbol export declaration handed to `export_module` (static or
dynamic; both carry a name, a namespace and a version). -/
structure ExportDecl where
  name : String
  ns : String
  version : Ver
deriving DecidableEq, Repr

/-- Embedding of the duplicate-export loop of `export_module`
(`module.py`): iterate over the export declarations keeping a set of
already seen symbol names, and fail on the first declaration whose name
was already seen. -/
def checkExportDuplicates : List ExportDecl → List String → Bool
  | [], _ => true
  | e :: rest, seen =>
    if e.name ∈ seen then false else checkExportDuplicates rest (e.name :: seen)

/-- `export_module` accepts a list of export declarations exactly when
the duplicate-export loop runs to completion starting from an empty set
of seen names. -/
def export_module_exports_ok (exps : List ExportDecl) : Bool :=
  checkExportDuplicates exps []

/-- Modelled from the spec: appending a module export to a loading set is
performed by the C function `fimo_module_set_append_freestanding_module`,
which is not part of this tree.  The spec states that duplicate module
names across the accepted set are rejected at append time. -/
def appendModuleName (pendingNames : List String) (name : String) :
    Except Unit (List String) :=
  if name ∈ pendingNames then .error () else .ok (name :: pendingNames)

/-! ## The `LoadingSet` context manager (`module.py`) -/

/-- The Python-side state of a `LoadingSet` object: `consumed` is true
exactly when `self._ffi is None`, which `_consume` establishes after a
successful `finish` or `dismiss`. -/
structure PyLoadingSet where
  consumed : Bool
deriving DecidableEq, Repr

/-- What a `LoadingSet` special method does with the underlying set. -/
inductive SetAction where
  | callFinish
  | callDismiss
  | noAction
deriving DecidableEq, Repr

/-- Embedding of `LoadingSet.__exit__`: the exception information is
ignored and `finish()` is called whenever the set has not been consumed. -/
def LoadingSet.exitDunder (s : PyLoadingSet) (excPending : Bool) : SetAction :=
  if s.consumed = false then .callFinish else .noAction

/-- Embedding of `LoadingSet.__del__`: `dismiss()` is called whenever the
set has not been consumed. -/
def LoadingSet.delDunder (s : PyLoadingSet) : SetAction :=
  if s.consumed = false then .callDismiss else .noAction

/-- Embedding of `LoadingSet.finish`: on FFI success `_consume` marks the
set consumed; if `raise_if_error` raises, the set stays unconsumed. -/
def LoadingSet.afterFinish (s : PyLoadingSet) (ffiOk : Bool) : PyLoadingSet :=
  if ffiOk then ⟨true⟩ else s

/-- Embedding of `LoadingSet.dismiss`: on FFI success `_consume` marks the
set consumed; if `raise_if_error` raises, the set stays unconsumed. -/
def LoadingSet.afterDismiss (s : PyLoadingSet) (ffiOk : Bool) : PyLoadingSet :=
  if ffiOk then ⟨true⟩ else s

/-! ## The dependency graph (modelled from the spec)

The dependency bookkeeping of `acquire_dependency`, `remove_dependency`
and `LoadingSet.finish` lives in the C library (`fimo_module_acquire_dependency`
and friends), which is not part of this tree; the definitions in this
section are modelled from the spec. -/

/-- A dependency edge (dependent module, dependency module); modules are
identified by numeric ids. -/
abbrev DepEdge := Nat × Nat

/-- The edge relation of a dependency graph given as an edge list. -/
def edgeRel (E : List DepEdge) (a b : Nat) : Prop := (a, b) ∈ E

/-- The direct successors (dependencies) of a module. -/
def succs (E : List DepEdge) (a : Nat) : List Nat :=
  (E.filter (fun e => decide (e.1 = a))).map Prod.snd

/-- Fuel-bounded reachability: is there a directed walk of length at most
`n` from `a` to `b`? -/
def reachIn (E : List DepEdge) : Nat → Nat → Nat → Bool
  | 0, a, b => decide (a = b)
  | n + 1, a, b => decide (a = b) || (succs E a).any (fun c => reachIn E n c b)

/-- Executable reachability: a simple directed walk never needs more than
`E.length` edges. -/
def reachableB (E : List DepEdge) (a b : Nat) : Bool := reachIn E E.length a b

/-- A dependency graph is acyclic when no module reaches itself through a
nonempty directed walk. -/
def Acyclic (E : List DepEdge) : Prop :=
  ∀ x, ¬ Relation.TransGen (edgeRel E) x x

/-- Executable acyclicity: no edge closes a directed cycle. -/
def acyclicB (E : List DepEdge) : Bool :=
  E.all (fun e => ! reachableB E e.2 e.1)

/-- Errors of the dependency operations. -/
inductive DepError where
  | DuplicateDependency
  | CyclicDependency
deriving DecidableEq, Repr

/-- Modelled from the spec: `acquire_dependency` (C function
`fimo_module_acquire_dependency`, absent from this tree) adds a dynamic
dependency edge; it fails if the edge already exists or if the new edge
would create a cycle, i.e. if the target already reaches the caller. -/
def acquire_dependency (E : List DepEdge) (m t : Nat) :
    Except DepError (List DepEdge) :=
  if (m, t) ∈ E then .error .DuplicateDependency
  else if reachableB E t m then .error .CyclicDependency
  else .ok ((m, t) :: E)

/-- Modelled from the spec: `append_modules` plus `finish` add a batch of
static dependency edges after checking that the combined graph (edges to
already-loaded modules included) is acyclic; a cyclic batch is rejected
wholesale. -/
def appendBatchEdges (E new : List DepEdge) : Except DepError (List DepEdge) :=
  if acyclicB (new ++ E) then .ok (new ++ E) else .error .CyclicDependency

/-- One operation on the dependency edge set. -/
inductive DepOp where
  | acquire (m t : Nat)
  | finishBatch (new : List DepEdge)

/-- Apply one dependency operation; a failing operation leaves the edge
set unchanged. -/
def applyDepOp (E : List DepEdge) : DepOp → List DepEdge
  | .acquire m t =>
    match acquire_dependency E m t with
    | .ok E2 => E2
    | .error _ => E
  | .finishBatch new =>
    match appendBatchEdges E new with
    | .ok E2 => E2
    | .error _ => E

/-- Run a sequence of dependency operations. -/
def runDepOps (E : List DepEdge) (ops : List DepOp) : List DepEdge :=
  ops.foldl applyDepOp E

/-- A directed walk from `a` to `b` whose successive vertices are `l`. -/
def isPath (E : List DepEdge) : Nat → List Nat → Nat → Prop
  | a, [], b => a = b
  | a, c :: cs, b => (a, c) ∈ E ∧ isPath E c cs b

/-! ## Symbols and the registry (modelled from the spec) -/

/-- The identity of an exported symbol: (name, namespace, version). -/
structure SymbolKey where
  name : String
  ns : String
  version : Ver
deriving DecidableEq, Repr

/-- A symbol import requirement (name, namespace, required version). -/
structure SymbolReq where
  name : String
  ns : String
  version : Ver
deriving DecidableEq, Repr

/-- An exported symbol satisfies a requirement when name and namespace
agree and the exported version is compatible with the required one. -/
def satisfiesReq (exp : SymbolKey) (req : SymbolReq) : Bool :=
  exp.name == req.name && exp.ns == req.ns
    && Ver.is_compatible exp.version req.version

/-- The symbol registry: published symbols, each with the name of its
owning module. -/
abbrev Registry := List (SymbolKey × String)

/-- The owner of the first registry entry satisfying the request. -/
def findExporter (reg : Registry) (req : SymbolReq) : Option String :=
  (reg.find? (fun e => satisfiesReq e.1 req)).map Prod.snd

/-- Errors of symbol loading. -/
inductive SymError where
  | NotFound
  | PermissionDenied
deriving DecidableEq, Repr

/-- The per-instance state relevant to symbol loading: names of the
modules the instance depends on (static or dynamic) and the namespaces it
has included (static or dynamic). -/
structure InstanceState where
  deps : List String
  nsIncludes : List String
deriving DecidableEq, Repr

/-- Modelled from the spec: `load_raw_symbol` delegates to the C function
`fimo_module_load_symbol`, which is not part of this tree.  The spec:
loading a symbol in namespace N fails with `PermissionDenied` unless N
has been included by the caller, and with `NotFound` if no compatible
symbol is published or the exporting module is not a dependency of the
caller. -/
def load_raw_symbol (m : InstanceState) (reg : Registry) (req : SymbolReq) :
    Except SymError String :=
  if req.ns ∉ m.nsIncludes then .error .PermissionDenied
  else
    match findExporter reg req with
    | none => .error .NotFound
    | some owner => if owner ∈ m.deps then .ok owner else .error .NotFound

/-! ## Module info lifecycle (modelled from the spec) -/

/-- The load states of a module: `Loaded → Unloading → Freed`. -/
inductive LoadState where
  | Loaded
  | Unloading
  | Freed
deriving DecidableEq, Repr

/-- The observable counters of one `ModuleInfo`: its load state, the
number of modules holding a dependency edge to it, and its unload-lock
count. -/
structure InfoState where
  state : LoadState
  dependents : Nat
  unloadLocks : Nat
deriving DecidableEq, Repr

/-- Errors of `unload`. -/
inductive UnloadError where
  | Busy
  | NotLoaded
deriving DecidableEq, Repr

/-- Result of one `unload` call: the error (if any), the state
afterwards, and the sequence of load states the module passed through. -/
structure UnloadOutcome where
  result : Option UnloadError
  final : InfoState
  trace : List LoadState
deriving DecidableEq, Repr

/-- Modelled from the spec: `ModuleInfoView.unload` delegates to the C
function `fimo_module_unload`, which is not part of this tree.  The spec:
unload fails while another module holds a dependency edge to the module
or its unload-lock count is positive, leaving it `Loaded`; otherwise it
transitions the module through `Unloading` (running the destructor) to
`Freed`. -/
def unloadInfo (s : InfoState) : UnloadOutcome :=
  if s.state ≠ .Loaded then ⟨some .NotLoaded, s, []⟩
  else if s.dependents > 0 ∨ s.unloadLocks > 0 then ⟨some .Busy, s, []⟩
  else ⟨none, { s with state := .Freed }, [.Unloading, .Freed]⟩

/-- Modelled from the spec: `ModuleInfoView.__enter__` delegates to the C
function `fimo_impl_module_info_lock_unload` (absent from this tree),
which increments the unload-lock count. -/
def lockUnload (s : InfoState) : InfoState :=
  { s with unloadLocks := s.unloadLocks + 1 }

/-- Modelled from the spec: `ModuleInfoView.__exit__` delegates to the C
function `fimo_impl_module_info_unlock_unload` (absent from this tree),
which decrements the unload-lock count. -/
def unlockUnload (s : InfoState) : InfoState :=
  { s with unloadLocks := s.unloadLocks - 1 }

/-! ## Parameter access control -/

/-- From `module.py` (class `ParameterAccess`): the access tiers
Public = 0, Dependency = 1, Private = 2. -/
inductive ParameterAccess where
  | Public
  | Dependency
  | Private
deriving DecidableEq, Repr

/-- The numeric value of each tier as declared in `module.py`. -/
def ParameterAccess.value : ParameterAccess → Nat
  | .Public => 0
  | .Dependency => 1
  | .Private => 2

/-- The class of the caller of a parameter read or write: an outside
(public) caller going through the context, a module that is a dependency
of the owner, or the owning module itself. -/
inductive CallerClass where
  | publicCaller
  | dependencyModule
  | owningModule
deriving DecidableEq, Repr

/-- A caller's privilege on the same scale as the tiers: a public caller
can use only the public entry points, a dependency also the dependency
entry points, the owner all of them. -/
def CallerClass.privilege : CallerClass → Nat
  | .publicCaller => 0
  | .dependencyModule => 1
  | .owningModule => 2

/-- "Stricter" in the sense of the spec: a caller class is stricter than
an access tier when its privilege is below what the tier demands. -/
def stricterThan (c : CallerClass) (t : ParameterAccess) : Prop :=
  c.privilege < t.value

instance (c : CallerClass) (t : ParameterAccess) :
    Decidable (stricterThan c t) := by
  unfold stricterThan; infer_instance

/-- The error of a rejected parameter access. -/
inductive AccessError where
  | PermissionDenied
deriving DecidableEq, Repr

/-- A parameter with independent read and write tiers and its value. -/
structure ParamState where
  readTier : ParameterAccess
  writeTier : ParameterAccess
  value : Int
deriving DecidableEq, Repr

/-- Modelled from the spec: the parameter write path (C functions
`fimo_module_param_set_public` / `_dependency` / `_private`, absent from
this tree) succeeds exactly when the caller's class is at least as loose
as the declared write tier, and otherwise rejects the write with
`PermissionDenied`, leaving the parameter unchanged. -/
def writeParam (p : ParamState) (caller : CallerClass) (v : Int) :
    Except AccessError ParamState :=
  if p.writeTier.value ≤ caller.privilege then .ok { p with value := v }
  else .error .PermissionDenied

/-- Modelled from the spec: the parameter read path, checked against the
declared read tier only. -/
def readParam (p : ParamState) (caller : CallerClass) :
    Except AccessError Int :=
  if p.readTier.value ≤ caller.privilege then .ok p.value
  else .error .PermissionDenied

/-! ## The loading set resolver (modelled from the spec)

`LoadingSet.finish` delegates to the C function `fimo_module_set_finish`,
which is not part of this tree; the resolver below is modelled from the
spec (section 4.1): check that every import is satisfiable, topologically
order the descriptors, construct in order, and on a constructor failure
destroy the constructed instances in reverse order leaving the registry
and the loaded set as they were. -/

/-- One pending module export descriptor of a loading set, reduced to the
data the resolver consumes; `ctorOk` abstracts whether the module's
constructor succeeds. -/
structure ModuleDesc where
  name : String
  nsImports : List String
  imports : List SymbolReq
  exports : List SymbolKey
  ctorOk : Bool
deriving DecidableEq, Repr

/-- The process-wide state `finish` acts on: the symbol registry and the
names of the loaded modules. -/
structure RuntimeState where
  registry : Registry
  loaded : List String
deriving DecidableEq, Repr

/-- Does some published symbol satisfy the requirement? -/
def registrySatisfies (reg : Registry) (req : SymbolReq) : Bool :=
  reg.any (fun e => satisfiesReq e.1 req)

/-- The name of the first descriptor of the set exporting a satisfying
symbol. -/
def setProvider (descs : List ModuleDesc) (req : SymbolReq) : Option String :=
  (descs.find? (fun d => d.exports.any (fun e => satisfiesReq e req))).map
    (fun d => d.name)

/-- An import is satisfiable when the registry or some descriptor of the
set provides it. -/
def importSatisfiable (st : RuntimeState) (descs : List ModuleDesc)
    (req : SymbolReq) : Bool :=
  registrySatisfies st.registry req || (setProvider descs req).isSome

/-- Every import of every descriptor of the set is satisfiable. -/
def allImportsSatisfiable (st : RuntimeState) (descs : List ModuleDesc) : Bool :=
  descs.all (fun d => d.imports.all (importSatisfiable st descs))

/-- A descriptor is ready to construct when each of its imports is
satisfied by the registry or by an already constructed set module. -/
def readyDesc (st : RuntimeState) (descs : List ModuleDesc)
    (placed : List String) (d : ModuleDesc) : Bool :=
  d.imports.all (fun req =>
    registrySatisfies st.registry req
      || (match setProvider descs req with
          | some p => placed.contains p
          | none => false))

/-- Kahn-style topological ordering of the set's descriptors against the
in-set dependency edges; `none` when no progress is possible (a cycle). -/
def topoGo (st : RuntimeState) (descs : List ModuleDesc) :
    Nat → List ModuleDesc → List String → List ModuleDesc →
      Option (List ModuleDesc)
  | 0, pending, _, acc => if pending.isEmpty then some acc.reverse else none
  | fuel + 1, pending, placed, acc =>
    if pending.isEmpty then some acc.reverse
    else
      match pending.find? (readyDesc st descs placed) with
      | none => none
      | some d =>
        topoGo st descs fuel (pending.erase d) (d.name :: placed) (d :: acc)

/-- Topological order of a loading set, or `none` on a cycle. -/
def topoSort (st : RuntimeState) (descs : List ModuleDesc) :
    Option (List ModuleDesc) :=
  topoGo st descs descs.length descs [] []

/-- Errors of `finish`. -/
inductive FinishError where
  | DependencyNotSatisfied
  | CyclicDependency
  | ConstructionFailed (m : String)
deriving DecidableEq, Repr

/-- The construction pass: construct the descriptors in order, marking
each constructed module loaded; stop at the first failing constructor.
Returns the state reached, the names constructed in order, and the
failing module if any. -/
def constructPhase : RuntimeState → List ModuleDesc →
    RuntimeState × List String × Option String
  | st, [] => (st, [], none)
  | st, d :: rest =>
    if d.ctorOk then
      match constructPhase { st with loaded := d.name :: st.loaded } rest with
      | (st2, names, fail) => (st2, d.name :: names, fail)
    else (st, [], some d.name)

/-- The rollback pass: destroy the named instances in the given order,
removing each from the loaded set. -/
def rollbackPhase : RuntimeState → List String → RuntimeState
  | st, [] => st
  | st, mname :: rest =>
    rollbackPhase { st with loaded := st.loaded.erase mname } rest

/-- Publish the symbols of all constructed descriptors to the registry
(spec step 5: publication happens only after every constructor ran). -/
def publishSet (st : RuntimeState) (order : List ModuleDesc) : RuntimeState :=
  { st with
    registry :=
      st.registry
        ++ (order.map (fun d => d.exports.map (fun e => (e, d.name)))).flatten }

/-- Modelled from the spec: `LoadingSet.finish` (C function
`fimo_module_set_finish`, absent from this tree).  Reject the batch when
an import cannot be satisfied or the graph has a cycle; otherwise
construct in topological order; on a constructor failure destroy the
already-constructed instances in reverse order; on success publish all
symbols. -/
def finishSet (st : RuntimeState) (descs : List ModuleDesc) :
    Option FinishError × RuntimeState :=
  if allImportsSatisfiable st descs then
    match topoSort st descs with
    | none => (some .CyclicDependency, st)
    | some order =>
      match constructPhase st order with
      | (st2, names, some failing) =>
        (some (.ConstructionFailed failing), rollbackPhase st2 names.reverse)
      | (st2, _, none) => (none, publishSet st2 order)
  else (some .DependencyNotSatisfied, st)

/-! # Theorems -/

/-! ## Helper lemmas -/

theorem checkExportDuplicates_eq_true (exps : List ExportDecl) :
    ∀ seen : List String,
      checkExportDuplicates exps seen = true ↔
        (exps.map (·.name)).Nodup ∧ ∀ n ∈ exps.map (·.name), n ∉ seen := by
  induction exps with
  | nil => intro seen; simp [checkExportDuplicates]
  | cons e rest ih =>
    intro seen
    by_cases h : e.name ∈ seen
    · constructor
      · intro hrun
        exfalso
        simp only [checkExportDuplicates, if_pos h] at hrun
        exact Bool.false_ne_true hrun
      · rintro ⟨_, hall⟩
        exact absurd h (hall e.name (by simp))
    · have hrec := ih (e.name :: seen)
      constructor
      · intro hrun
        simp only [checkExportDuplicates, if_neg h] at hrun
        obtain ⟨hnodup, hnotin⟩ := hrec.mp hrun
        refine ⟨?_, ?_⟩
        · simp only [List.map_cons, List.nodup_cons]
          exact ⟨fun hmem => (hnotin e.name hmem) (List.mem_cons_self _ _), hnodup⟩
        · intro n hn
          simp only [List.map_cons, List.mem_cons] at hn
          rcases hn with rfl | hn
          · exact h
          · intro hcon
            exact (hnotin n hn) (List.mem_cons_of_mem _ hcon)
      · rintro ⟨hnodup, hall⟩
        simp only [List.map_cons, List.nodup_cons] at hnodup
        simp only [checkExportDuplicates, if_neg h]
        refine hrec.mpr ⟨hnodup.2, fun n hn hmem => ?_⟩
        rcases List.mem_cons.mp hmem with rfl | hmem2
        · exact hnodup.1 hn
        · have hmemall : n ∈ List.map (fun x => x.name) (e :: rest) := by
            simp only [List.map_cons, List.mem_cons]
            exact Or.inr hn
          exact (hall n hmemall) hmem2

/-! ## Claim theorems -/

/-- Claim C2: for every pair of versions, `is_compatible got required`
is true exactly when the major versions agree, the minor versions agree
whenever the major version is 0, and `required <= got` ignoring the build
component; moreover the four concrete examples of the spec evaluate as
stated. -/
theorem claim_C2_version_compatibility :
    (∀ got required : Ver,
        Ver.is_compatible got required = true ↔
          got.major = required.major
            ∧ (got.major = 0 → got.minor = required.minor)
            ∧ Ver.leNoBuild required got)
    ∧ Ver.is_compatible ⟨1, 5, 0, 10⟩ ⟨1, 5, 0, 10⟩ = true
    ∧ Ver.is_compatible ⟨1, 4, 0, 0⟩ ⟨1, 5, 0, 10⟩ = false
    ∧ Ver.is_compatible ⟨1, 9, 1, 0⟩ ⟨1, 5, 0, 10⟩ = true
    ∧ Ver.is_compatible ⟨0, 2, 1, 0⟩ ⟨0, 1, 0, 0⟩ = false := by
  refine ⟨fun got required => ?_, by decide, by decide, by decide, by decide⟩
  obtain ⟨gm, gn, gp, gb⟩ := got
  obtain ⟨rm, rn, rp, rb⟩ := required
  simp only [Ver.is_compatible, Ver.ltNoBuild, Ver.leNoBuild,
    Bool.and_eq_true, Bool.or_eq_true, Bool.not_eq_true', Bool.or_eq_false_iff,
    Bool.and_eq_false_iff, beq_iff_eq, beq_eq_false_iff_ne, bne_iff_ne, ne_eq,
    decide_eq_true_eq, decide_eq_false_iff_not, not_lt]
  omega

/-- Claim C9: the embedded `Version.__init__` raises `EINVAL` exactly when
major, minor or patch lies outside [0, 4294967295] or the (defaulted)
build lies outside [0, 18446744073709551615]; otherwise it stores the
arguments unchanged, with an omitted or `None` build treated as 0. -/
theorem claim_C9_version_init :
    ∀ (major minor patch : Int) (build? : Option Int),
      (VersionInit major minor patch build? = .error .EINVAL ↔
          ¬((0 ≤ major ∧ major ≤ 4294967295)
            ∧ (0 ≤ minor ∧ minor ≤ 4294967295)
            ∧ (0 ≤ patch ∧ patch ≤ 4294967295)
            ∧ (0 ≤ build?.getD 0 ∧ build?.getD 0 ≤ 18446744073709551615)))
      ∧ (∀ v : FimoVersionQ,
          VersionInit major minor patch build? = .ok v ↔
            ((0 ≤ major ∧ major ≤ 4294967295)
              ∧ (0 ≤ minor ∧ minor ≤ 4294967295)
              ∧ (0 ≤ patch ∧ patch ≤ 4294967295)
              ∧ (0 ≤ build?.getD 0 ∧ build?.getD 0 ≤ 18446744073709551615))
              ∧ v = ⟨major, minor, patch, build?.getD 0⟩) := by
  intro major minor patch build?
  unfold VersionInit
  constructor
  · split_ifs with h1 h2 h3 h4 <;> simp <;> omega
  · intro v
    split_ifs with h1 h2 h3 h4
    · simp only [Except.ok.injEq]
      constructor
      · intro hv
        exact ⟨⟨h1, h2, h3, h4⟩, hv.symm⟩
      · rintro ⟨_, rfl⟩
        rfl
    · simp only [false_iff]; tauto
    · simp only [false_iff]; tauto
    · simp only [false_iff]; tauto
    · simp only [false_iff]; tauto

/-- Claim C8: the embedded `module_resource` fails exactly when the path
starts with a path separator (a slash or a backslash); every other path,
including the empty one, is accepted unchanged.  The check is part of the
declaration helper itself, hence it runs at declaration time. -/
theorem claim_C8_resource_path :
    ∀ path : List Char,
      (module_resource path = .error () ↔
          ∃ ch rest, path = ch :: rest ∧ (ch = '/' ∨ ch = '\\'))
      ∧ (∀ res, module_resource path = .ok res ↔
          res = path ∧ ¬∃ ch rest, path = ch :: rest ∧ (ch = '/' ∨ ch = '\\'))
      ∧ module_resource [] = .ok [] := by
  intro path
  have hsep : startsWithSep path = true ↔
      ∃ ch rest, path = ch :: rest ∧ (ch = '/' ∨ ch = '\\') := by
    cases path with
    | nil => simp [startsWithSep]
    | cons ch rest =>
      simp only [startsWithSep, Bool.or_eq_true, beq_iff_eq]
      constructor
      · intro h; exact ⟨ch, rest, rfl, h⟩
      · rintro ⟨ch2, rest2, heq, h⟩
        cases heq; exact h
  refine ⟨?_, ?_, by simp [module_resource, startsWithSep]⟩
  · unfold module_resource
    split_ifs with h
    · simpa using hsep.mp h
    · simp only [Bool.not_eq_true] at h
      simp only [reduceCtorEq, false_iff]
      intro hcon
      rw [← hsep] at hcon
      simp [h] at hcon
  · intro res
    unfold module_resource
    split_ifs with h
    · simp only [reduceCtorEq, false_iff]
      rintro ⟨rfl, hcon⟩
      exact hcon (hsep.mp h)
    · simp only [Except.ok.injEq]
      constructor
      · rintro rfl
        refine ⟨rfl, fun hcon => ?_⟩
        rw [← hsep] at hcon
        simp [h] at hcon
      · rintro ⟨rfl, _⟩; rfl

/-- Claim C7 counterexample: two export declarations that share a symbol
name but differ in the namespace component of the (namespace, name,
version) triple are rejected by `export_module`, although the claim
states that exports differing in any component of the triple are
accepted. -/
theorem claim_C7_counterexample :
    export_module_exports_ok
        [⟨"sym", "ns1", ⟨1, 0, 0, 0⟩⟩, ⟨"sym", "ns2", ⟨1, 0, 0, 0⟩⟩] = false
    ∧ (ExportDecl.mk "sym" "ns1" ⟨1, 0, 0, 0⟩).ns
        ≠ (ExportDecl.mk "sym" "ns2" ⟨1, 0, 0, 0⟩).ns := by
  constructor
  · rfl
  · decide

/-- Claim C7 (amended): duplicate symbol exports are identified by the
symbol name alone and rejected at declaration time (`export_module`
accepts a list of export declarations exactly when the symbol names are
pairwise distinct), and duplicate module names are rejected when the
module is appended to a loading set. -/
theorem claim_C7_duplicate_exports :
    (∀ exps : List ExportDecl,
        export_module_exports_ok exps = true ↔ (exps.map (·.name)).Nodup)
    ∧ (∀ (pendingNames : List String) (name : String),
        (appendModuleName pendingNames name = .error () ↔ name ∈ pendingNames)
        ∧ (appendModuleName pendingNames name = .ok (name :: pendingNames) ↔
            name ∉ pendingNames)) := by
  constructor
  · intro exps
    unfold export_module_exports_ok
    rw [checkExportDuplicates_eq_true]
    simp
  · intro pendingNames name
    unfold appendModuleName
    split_ifs with h <;> simp [h]

/-- Claim C10: exiting the `with` block calls `finish()` exactly when the
set was not consumed (not already finished or dismissed), independently of
whether an exception is propagating, while garbage collection of an
unconsumed set calls `dismiss()` instead; a set counts as consumed exactly
after a successful `finish` or `dismiss`. -/
theorem claim_C10_context_manager :
    ∀ (s : PyLoadingSet) (excPending : Bool),
      (LoadingSet.exitDunder s excPending = .callFinish ↔ s.consumed = false)
      ∧ LoadingSet.exitDunder s true = LoadingSet.exitDunder s false
      ∧ (LoadingSet.delDunder s = .callDismiss ↔ s.consumed = false)
      ∧ (∀ ffiOk : Bool,
          ((LoadingSet.afterFinish s ffiOk).consumed = true ↔
              (ffiOk = true ∨ s.consumed = true))
          ∧ ((LoadingSet.afterDismiss s ffiOk).consumed = true ↔
              (ffiOk = true ∨ s.consumed = true))) := by
  intro s excPending
  obtain ⟨c⟩ := s
  revert excPending
  cases c <;> decide

/-! ## Graph lemmas -/

theorem mem_succs (E : List DepEdge) (a c : Nat) : c ∈ succs E a ↔ (a, c) ∈ E := by
  unfold succs
  simp only [List.mem_map, List.mem_filter, decide_eq_true_eq]
  constructor
  · rintro ⟨⟨p, q⟩, ⟨hmem, ha⟩, hc⟩
    simp only at ha hc
    subst ha; subst hc
    exact hmem
  · intro h
    exact ⟨(a, c), ⟨h, rfl⟩, rfl⟩

theorem reachIn_self (E : List DepEdge) (n a : Nat) : reachIn E n a a = true := by
  cases n <;> simp [reachIn]

theorem reachIn_sound (E : List DepEdge) :
    ∀ n a b : Nat, reachIn E n a b = true →
      Relation.ReflTransGen (edgeRel E) a b := by
  intro n
  induction n with
  | zero =>
    intro a b h
    simp only [reachIn, decide_eq_true_eq] at h
    subst h
    exact .refl
  | succ n ih =>
    intro a b h
    simp only [reachIn, Bool.or_eq_true, decide_eq_true_eq, List.any_eq_true] at h
    rcases h with rfl | ⟨c, hc, hr⟩
    · exact .refl
    · exact Relation.ReflTransGen.head ((mem_succs E a c).mp hc) (ih c b hr)

theorem isPath_reachIn (E : List DepEdge) :
    ∀ (l : List Nat) (a b n : Nat), isPath E a l b → l.length ≤ n →
      reachIn E n a b = true := by
  intro l
  induction l with
  | nil =>
    intro a b n hp _
    have hab : a = b := hp
    subst hab
    exact reachIn_self E n a
  | cons c cs ih =>
    intro a b n hp hlen
    obtain ⟨hedge, hrest⟩ := hp
    cases n with
    | zero => simp at hlen
    | succ n =>
      simp only [reachIn, Bool.or_eq_true, decide_eq_true_eq, List.any_eq_true]
      refine Or.inr ⟨c, (mem_succs E a c).mpr hedge, ih c b n hrest ?_⟩
      simpa using hlen

theorem rtg_iff_isPath (E : List DepEdge) (a b : Nat) :
    Relation.ReflTransGen (edgeRel E) a b ↔ ∃ l, isPath E a l b := by
  constructor
  · intro h
    induction h using Relation.ReflTransGen.head_induction_on with
    | refl => exact ⟨[], rfl⟩
    | head hstep _ ih =>
      obtain ⟨l, hl⟩ := ih
      exact ⟨_ :: l, hstep, hl⟩
  · rintro ⟨l, hl⟩
    induction l generalizing a with
    | nil =>
      have hab : a = b := hl
      subst hab
      exact .refl
    | cons c cs ih =>
      exact Relation.ReflTransGen.head hl.1 (ih c hl.2)

theorem isPath_split (E : List DepEdge) :
    ∀ (l1 : List Nat) (a c : Nat) (l2 : List Nat) (b : Nat),
      isPath E a (l1 ++ c :: l2) b ↔
        (isPath E a (l1 ++ [c]) c ∧ isPath E c l2 b) := by
  intro l1
  induction l1 with
  | nil =>
    intro a c l2 b
    simp [isPath]
  | cons x xs ih =>
    intro a c l2 b
    simp only [List.cons_append, isPath, List.append_eq]
    rw [ih x c l2 b]
    tauto

theorem exists_dup_split {α : Type} (l : List α) (h : ¬ l.Nodup) :
    ∃ (l1 : List α) (c : α) (l2 l3 : List α), l = l1 ++ c :: l2 ++ c :: l3 := by
  induction l with
  | nil => simp at h
  | cons x xs ih =>
    rw [List.nodup_cons] at h
    rcases Classical.em (x ∈ xs) with hx | hx
    · obtain ⟨s, t, rfl⟩ := List.append_of_mem hx
      exact ⟨[], x, s, t, by simp⟩
    · have hxs : ¬ xs.Nodup := fun hn => h ⟨hx, hn⟩
      obtain ⟨l1, c, l2, l3, rfl⟩ := ih hxs
      exact ⟨x :: l1, c, l2, l3, by simp⟩

theorem isPath_shorten (E : List DepEdge) :
    ∀ (n : Nat) (l : List Nat) (a b : Nat), l.length ≤ n → isPath E a l b →
      ∃ l2, isPath E a l2 b ∧ l2.Nodup ∧ l2.length ≤ l.length := by
  intro n
  induction n with
  | zero =>
    intro l a b hlen hp
    have : l = [] := List.length_eq_zero.mp (Nat.le_zero.mp hlen)
    subst this
    exact ⟨[], hp, List.nodup_nil, le_rfl⟩
  | succ n ih =>
    intro l a b hlen hp
    by_cases hnd : l.Nodup
    · exact ⟨l, hp, hnd, le_rfl⟩
    · obtain ⟨l1, c, l2, l3, rfl⟩ := exists_dup_split l hnd
      have hcut : isPath E a (l1 ++ c :: l3) b := by
        have h0 : isPath E a ((l1 ++ c :: l2) ++ c :: l3) b := by
          have heq : (l1 ++ c :: l2) ++ c :: l3 = l1 ++ c :: l2 ++ c :: l3 := by
            simp
          rw [heq]
          exact hp
        obtain ⟨h1, h2⟩ := (isPath_split E (l1 ++ c :: l2) a c l3 b).mp h0
        have h1b : isPath E a (l1 ++ c :: (l2 ++ [c])) c := by
          have heq : l1 ++ c :: (l2 ++ [c]) = (l1 ++ c :: l2) ++ [c] := by simp
          rw [heq]
          exact h1
        obtain ⟨h3, _⟩ := (isPath_split E l1 a c (l2 ++ [c]) c).mp h1b
        exact (isPath_split E l1 a c l3 b).mpr ⟨h3, h2⟩
      have hlt : (l1 ++ c :: l3).length < (l1 ++ c :: l2 ++ c :: l3).length := by
        simp only [List.length_append, List.length_cons]
        omega
      obtain ⟨l4, hp4, hnd4, hlen4⟩ :=
        ih (l1 ++ c :: l3) a b (by
          have := hlen
          simp only [List.length_append, List.length_cons] at this ⊢
          omega) hcut
      exact ⟨l4, hp4, hnd4, le_trans hlen4 (Nat.le_of_lt hlt)⟩

theorem isPath_subset_snd (E : List DepEdge) :
    ∀ (l : List Nat) (a b : Nat), isPath E a l b → l ⊆ E.map Prod.snd := by
  intro l
  induction l with
  | nil =>
    intro a b _
    simp
  | cons c cs ih =>
    intro a b hp
    obtain ⟨hedge, hrest⟩ := hp
    intro x hx
    rcases List.mem_cons.mp hx with rfl | hx
    · exact List.mem_map.mpr ⟨(a, x), hedge, rfl⟩
    · exact ih c b hrest hx

theorem reachableB_complete (E : List DepEdge) (a b : Nat)
    (h : Relation.ReflTransGen (edgeRel E) a b) : reachableB E a b = true := by
  obtain ⟨l, hl⟩ := (rtg_iff_isPath E a b).mp h
  obtain ⟨l2, hl2, hnd, _⟩ := isPath_shorten E l.length l a b le_rfl hl
  have hsub := isPath_subset_snd E l2 a b hl2
  have hlen : l2.length ≤ E.length := by
    have hle := (hnd.subperm hsub).length_le
    simpa using hle
  exact isPath_reachIn E l2 a b E.length hl2 hlen

theorem reachableB_iff (E : List DepEdge) (a b : Nat) :
    reachableB E a b = true ↔ Relation.ReflTransGen (edgeRel E) a b :=
  ⟨reachIn_sound E E.length a b, reachableB_complete E a b⟩

theorem acyclicB_iff (E : List DepEdge) : acyclicB E = true ↔ Acyclic E := by
  unfold acyclicB Acyclic
  simp only [List.all_eq_true, Bool.not_eq_true']
  constructor
  · intro h x hcyc
    obtain ⟨c, hedge, hrtg⟩ := Relation.TransGen.head'_iff.mp hcyc
    have hfalse := h (x, c) hedge
    have htrue := reachableB_complete E c x hrtg
    simp [htrue] at hfalse
  · rintro h ⟨p, q⟩ hmem
    by_contra hcon
    have htrue : reachableB E q p = true := by
      cases hqp : reachableB E q p
      · exact absurd hqp hcon
      · rfl
    exact h p (Relation.TransGen.head'_iff.mpr
      ⟨q, hmem, (reachableB_iff E q p).mp htrue⟩)

theorem rtg_cons_edge (E : List DepEdge) (m t : Nat) :
    ∀ a b : Nat, Relation.ReflTransGen (edgeRel ((m, t) :: E)) a b →
      Relation.ReflTransGen (edgeRel E) a b
        ∨ (Relation.ReflTransGen (edgeRel E) a m
            ∧ Relation.ReflTransGen (edgeRel ((m, t) :: E)) t b) := by
  intro a b h
  induction h using Relation.ReflTransGen.head_induction_on with
  | refl => exact Or.inl .refl
  | head hstep hrest ih =>
    rcases List.mem_cons.mp hstep with heq | hmem
    · have e1 : _ = m := congrArg Prod.fst heq
      have e2 : _ = t := congrArg Prod.snd heq
      subst e1
      subst e2
      exact Or.inr ⟨.refl, hrest⟩
    · rcases ih with hl | ⟨h1, h2⟩
      · exact Or.inl (.head hmem hl)
      · exact Or.inr ⟨.head hmem h1, h2⟩

theorem acyclic_insert (E : List DepEdge) (m t : Nat) (hac : Acyclic E)
    (hno : ¬ Relation.ReflTransGen (edgeRel E) t m) :
    Acyclic ((m, t) :: E) := by
  have key : ∀ a b, Relation.ReflTransGen (edgeRel ((m, t) :: E)) a b →
      Relation.ReflTransGen (edgeRel E) a b
        ∨ (Relation.ReflTransGen (edgeRel E) a m
            ∧ Relation.ReflTransGen (edgeRel E) t b) := by
    intro a b h
    rcases rtg_cons_edge E m t a b h with h1 | ⟨h1, h2⟩
    · exact Or.inl h1
    · rcases rtg_cons_edge E m t t b h2 with h3 | ⟨h3, _⟩
      · exact Or.inr ⟨h1, h3⟩
      · exact absurd h3 hno
  intro x hcyc
  obtain ⟨c, hedge, hrtg⟩ := Relation.TransGen.head'_iff.mp hcyc
  rcases List.mem_cons.mp hedge with heq | hmem
  · have e1 : x = m := congrArg Prod.fst heq
    have e2 : c = t := congrArg Prod.snd heq
    rw [e1, e2] at hrtg
    rcases key t m hrtg with h1 | ⟨_, h2⟩
    · exact hno h1
    · exact hno h2
  · rcases key c x hrtg with h1 | ⟨h1, h2⟩
    · exact hac x (Relation.TransGen.head'_iff.mpr ⟨c, hmem, h1⟩)
    · exact hno (h2.trans (Relation.ReflTransGen.head hmem h1))

theorem applyDepOp_acyclic (E : List DepEdge) (op : DepOp) (h : Acyclic E) :
    Acyclic (applyDepOp E op) := by
  cases op with
  | acquire m t =>
    by_cases h1 : (m, t) ∈ E
    · simpa [applyDepOp, acquire_dependency, h1] using h
    · by_cases h2 : reachableB E t m = true
      · simpa [applyDepOp, acquire_dependency, h1, h2] using h
      · have h2f : reachableB E t m = false := by
          cases hx : reachableB E t m
          · rfl
          · exact absurd hx h2
        have hgoal : applyDepOp E (.acquire m t) = (m, t) :: E := by
          simp [applyDepOp, acquire_dependency, h1, h2f]
        rw [hgoal]
        exact acyclic_insert E m t h
          (fun hc => h2 (reachableB_complete E t m hc))
  | finishBatch new =>
    by_cases h1 : acyclicB (new ++ E) = true
    · have hgoal : applyDepOp E (.finishBatch new) = new ++ E := by
        simp [applyDepOp, appendBatchEdges, h1]
      rw [hgoal]
      exact (acyclicB_iff (new ++ E)).mp h1
    · have h1f : acyclicB (new ++ E) = false := by
        cases hx : acyclicB (new ++ E)
        · rfl
        · exact absurd hx h1
      simpa [applyDepOp, appendBatchEdges, h1f] using h

theorem runDepOps_acyclic (ops : List DepOp) :
    ∀ E : List DepEdge, Acyclic E → Acyclic (runDepOps E ops) := by
  induction ops with
  | nil =>
    intro E h
    exact h
  | cons op rest ih =>
    intro E h
    have hstep := applyDepOp_acyclic E op h
    simpa [runDepOps, List.foldl_cons] using ih (applyDepOp E op) hstep

/-- Claim C3: starting from any acyclic state, every sequence of
`acquire_dependency` and `append_modules`/`finish` operations keeps the
dependency edge set a directed acyclic graph; an `acquire_dependency`
whose edge already exists fails with a duplicate error, one whose edge
would close a cycle fails with `CyclicDependency`, and both leave the
edge set unchanged. -/
theorem claim_C3_dependency_dag (E : List DepEdge) (ops : List DepOp)
    (hE : acyclicB E = true) :
    Acyclic (runDepOps E ops)
    ∧ (∀ m t : Nat, (m, t) ∈ E →
        acquire_dependency E m t = .error .DuplicateDependency
          ∧ applyDepOp E (.acquire m t) = E)
    ∧ (∀ m t : Nat, (m, t) ∉ E → Relation.ReflTransGen (edgeRel E) t m →
        acquire_dependency E m t = .error .CyclicDependency
          ∧ applyDepOp E (.acquire m t) = E) := by
  refine ⟨runDepOps_acyclic ops E ((acyclicB_iff E).mp hE), ?_, ?_⟩
  · intro m t hmem
    constructor
    · simp [acquire_dependency, hmem]
    · simp [applyDepOp, acquire_dependency, hmem]
  · intro m t hmem hrtg
    have hreach := reachableB_complete E t m hrtg
    constructor
    · simp [acquire_dependency, hmem, hreach]
    · simp [applyDepOp, acquire_dependency, hmem, hreach]

/-- Witness for claim C3 at a concrete acyclic starting state and a
concrete operation sequence. -/
theorem claim_C3_dependency_dag_witness :
    acyclicB [(0, 1)] = true
    ∧ (Acyclic (runDepOps [(0, 1)] [DepOp.acquire 1 2, DepOp.acquire 2 0])
        ∧ (∀ m t : Nat, (m, t) ∈ [(0, 1)] →
            acquire_dependency [(0, 1)] m t = .error .DuplicateDependency
              ∧ applyDepOp [(0, 1)] (.acquire m t) = [(0, 1)])
        ∧ (∀ m t : Nat, (m, t) ∉ [(0, 1)] →
            Relation.ReflTransGen (edgeRel [(0, 1)]) t m →
              acquire_dependency [(0, 1)] m t = .error .CyclicDependency
                ∧ applyDepOp [(0, 1)] (.acquire m t) = [(0, 1)])) :=
  ⟨by decide,
    claim_C3_dependency_dag [(0, 1)] [DepOp.acquire 1 2, DepOp.acquire 2 0]
      (by decide)⟩

/-! ## Rollback lemmas -/

theorem rollbackPhase_append (l1 : List String) :
    ∀ (st : RuntimeState) (l2 : List String),
      rollbackPhase st (l1 ++ l2) = rollbackPhase (rollbackPhase st l1) l2 := by
  induction l1 with
  | nil =>
    intro st l2
    rfl
  | cons x xs ih =>
    intro st l2
    simp only [List.cons_append, rollbackPhase]
    exact ih _ l2

theorem constructPhase_rollback (descs : List ModuleDesc) :
    ∀ (st st2 : RuntimeState) (names : List String) (fail : Option String),
      constructPhase st descs = (st2, names, fail) →
        rollbackPhase st2 names.reverse = st := by
  induction descs with
  | nil =>
    intro st st2 names fail h
    simp only [constructPhase, Prod.mk.injEq] at h
    obtain ⟨h1, h2, _⟩ := h
    subst h1
    subst h2
    rfl
  | cons d rest ih =>
    intro st st2 names fail h
    by_cases hc : d.ctorOk
    · rcases hrec : constructPhase { st with loaded := d.name :: st.loaded } rest
        with ⟨st3, names3, fail3⟩
      simp only [constructPhase, if_pos hc, hrec, Prod.mk.injEq] at h
      obtain ⟨h1, h2, _⟩ := h
      subst h1
      subst h2
      have hmid := ih { st with loaded := d.name :: st.loaded } st3 names3 fail3 hrec
      rw [List.reverse_cons, rollbackPhase_append, hmid]
      simp only [rollbackPhase, List.erase_cons_head]
    · simp only [constructPhase, if_neg hc, Prod.mk.injEq] at h
      obtain ⟨h1, h2, _⟩ := h
      subst h1
      subst h2
      rfl

/-- Claim C1: whenever `finish` fails (an unsatisfiable import, a cycle,
or a failing constructor), the symbol registry and the set of loaded
modules are identical to their state before `finish`; in particular no
module of the set remains constructed and nothing is published. -/
theorem claim_C1_finish_rollback (st : RuntimeState) (descs : List ModuleDesc)
    (err : FinishError) (st2 : RuntimeState)
    (h : finishSet st descs = (some err, st2)) :
    st2 = st
    ∧ st2.registry = st.registry
    ∧ (∀ d ∈ descs, d.name ∉ st.loaded → d.name ∉ st2.loaded) := by
  have hst : st2 = st := by
    unfold finishSet at h
    by_cases h1 : allImportsSatisfiable st descs
    · rw [if_pos h1] at h
      split at h
      · exact (congrArg Prod.snd h).symm
      · split at h
        · rename_i st3 names failing heq
          have hsnd : rollbackPhase st3 names.reverse = st2 := congrArg Prod.snd h
          rw [← hsnd]
          exact constructPhase_rollback _ st st3 names (some failing) heq
        · rename_i st3 names heq
          have hfst : (none : Option FinishError) = some err := congrArg Prod.fst h
          simp at hfst
    · rw [if_neg h1] at h
      exact (congrArg Prod.snd h).symm
  refine ⟨hst, by rw [hst], fun d _ hnot => by rw [hst]; exact hnot⟩

/-- Witness for claim C1: a one-module set whose constructor fails; the
state is unchanged by the failed `finish`. -/
theorem claim_C1_finish_rollback_witness :
    finishSet ⟨[], []⟩ [⟨"m", [], [], [], false⟩]
        = (some (.ConstructionFailed "m"), ⟨[], []⟩)
    ∧ ((⟨[], []⟩ : RuntimeState) = ⟨[], []⟩
        ∧ (RuntimeState.mk [] []).registry = (RuntimeState.mk [] []).registry
        ∧ (∀ d ∈ [(⟨"m", [], [], [], false⟩ : ModuleDesc)],
            d.name ∉ (RuntimeState.mk [] []).loaded →
              d.name ∉ (RuntimeState.mk [] []).loaded)) :=
  ⟨by decide,
    claim_C1_finish_rollback ⟨[], []⟩ [⟨"m", [], [], [], false⟩]
      (.ConstructionFailed "m") ⟨[], []⟩ (by decide)⟩

/-- Claim C4: `load_raw_symbol` succeeds exactly when the namespace is
included and the exporter of the symbol is a dependency; it fails with
`PermissionDenied` exactly when the namespace is not included, and with
`NotFound` exactly when the namespace is included but no compatible
symbol is published or its exporter is not a dependency. -/
theorem claim_C4_symbol_gating :
    ∀ (m : InstanceState) (reg : Registry) (req : SymbolReq),
      (load_raw_symbol m reg req = .error .PermissionDenied ↔
          req.ns ∉ m.nsIncludes)
      ∧ (∀ owner, load_raw_symbol m reg req = .ok owner ↔
          req.ns ∈ m.nsIncludes
            ∧ findExporter reg req = some owner
            ∧ owner ∈ m.deps)
      ∧ (load_raw_symbol m reg req = .error .NotFound ↔
          req.ns ∈ m.nsIncludes
            ∧ (findExporter reg req = none
                ∨ ∃ owner, findExporter reg req = some owner
                    ∧ owner ∉ m.deps)) := by
  intro m reg req
  unfold load_raw_symbol
  by_cases hns : req.ns ∈ m.nsIncludes
  · rw [if_neg (by simpa using hns)]
    cases hfind : findExporter reg req with
    | none => simp [hns]
    | some owner =>
      by_cases hdep : owner ∈ m.deps
      · simp [hns, hdep, hfind]
      · simp [hns, hdep, hfind]
  · rw [if_pos (by simpa using hns)]
    simp [hns]

/-- Claim C5: a loaded module with a dependent or a positive unload-lock
count cannot be unloaded (`Busy`, and it stays `Loaded` unchanged); once
both counts are zero, `unload` succeeds exactly once, passing through
`Unloading` to `Freed`, and a second `unload` fails; the context-manager
lock and unlock increment and decrement the unload-lock count. -/
theorem claim_C5_unload (s : InfoState) (hloaded : s.state = .Loaded) :
    ((s.dependents > 0 ∨ s.unloadLocks > 0) →
        (unloadInfo s).result = some .Busy
          ∧ (unloadInfo s).final = s
          ∧ (unloadInfo s).final.state = .Loaded)
    ∧ (s.dependents = 0 → s.unloadLocks = 0 →
        (unloadInfo s).result = none
          ∧ (unloadInfo s).trace = [.Unloading, .Freed]
          ∧ (unloadInfo s).final.state = .Freed
          ∧ (unloadInfo (unloadInfo s).final).result = some .NotLoaded)
    ∧ (lockUnload s).unloadLocks = s.unloadLocks + 1
    ∧ unlockUnload (lockUnload s) = s := by
  obtain ⟨sstate, sdeps, slocks⟩ := s
  simp only at hloaded
  subst hloaded
  refine ⟨?_, ?_, rfl, ?_⟩
  · intro hbusy
    have hcond : sdeps > 0 ∨ slocks > 0 := hbusy
    simp [unloadInfo, hcond]
  · intro hdeps hlocks
    subst hdeps
    subst hlocks
    simp [unloadInfo]
  · simp [unlockUnload, lockUnload]

/-- Witness for claim C5 at concrete states: one busy (a dependent and a
lock present) and, via a second application, the free case is covered by
the implications evaluated at the state with both counters zero. -/
theorem claim_C5_unload_witness :
    (InfoState.mk .Loaded 0 0).state = .Loaded
    ∧ ((((InfoState.mk .Loaded 0 0).dependents > 0
            ∨ (InfoState.mk .Loaded 0 0).unloadLocks > 0) →
          (unloadInfo ⟨.Loaded, 0, 0⟩).result = some .Busy
            ∧ (unloadInfo ⟨.Loaded, 0, 0⟩).final = ⟨.Loaded, 0, 0⟩
            ∧ (unloadInfo ⟨.Loaded, 0, 0⟩).final.state = .Loaded)
        ∧ ((InfoState.mk .Loaded 0 0).dependents = 0 →
            (InfoState.mk .Loaded 0 0).unloadLocks = 0 →
            (unloadInfo ⟨.Loaded, 0, 0⟩).result = none
              ∧ (unloadInfo ⟨.Loaded, 0, 0⟩).trace = [.Unloading, .Freed]
              ∧ (unloadInfo ⟨.Loaded, 0, 0⟩).final.state = .Freed
              ∧ (unloadInfo (unloadInfo ⟨.Loaded, 0, 0⟩).final).result
                  = some .NotLoaded)
        ∧ (lockUnload ⟨.Loaded, 0, 0⟩).unloadLocks
            = (InfoState.mk .Loaded 0 0).unloadLocks + 1
        ∧ unlockUnload (lockUnload ⟨.Loaded, 0, 0⟩) = ⟨.Loaded, 0, 0⟩) :=
  ⟨rfl, claim_C5_unload ⟨.Loaded, 0, 0⟩ rfl⟩

/-- Claim C6: a parameter write is rejected with `PermissionDenied`
exactly when the caller's class is stricter than the declared write tier,
and succeeds (updating the value) exactly when the caller is at the tier
or looser; reads obey the same rule against the read tier, independently
of the write tier. -/
theorem claim_C6_parameter_access :
    ∀ (p : ParamState) (caller : CallerClass) (v : Int),
      (writeParam p caller v = .error .PermissionDenied ↔
          stricterThan caller p.writeTier)
      ∧ (writeParam p caller v = .ok { p with value := v } ↔
          ¬ stricterThan caller p.writeTier)
      ∧ (readParam p caller = .error .PermissionDenied ↔
          stricterThan caller p.readTier)
      ∧ (readParam p caller = .ok p.value ↔
          ¬ stricterThan caller p.readTier) := by
  intro p caller v
  obtain ⟨rt, wt, pv⟩ := p
  cases rt <;> cases wt <;> cases caller <;>
    simp [writeParam, readParam, stricterThan, ParameterAccess.value,
      CallerClass.privilege]
